import Mathlib

/-
Verification development for the polyco phase-prediction module
(pint/models/polycos.py) together with its reader and table logic.

Numbers that the Python code holds as np.longdouble values are embedded as
exact rationals (ℚ): the claims under study are arithmetic identities and
control-flow properties, not rounding statements.  Machine indices are ℕ/ℤ
with Python's negative-index convention made explicit where the code can
reach it.  Fallible code paths return `Except PolycoError`.
-/

/-- Modelled from the spec: the dual-precision `Phase` value type of
`pint/phase.py`, which is not among the provided sources.  Per the spec it
keeps an integer cycle count and a fractional part, normalized so the
fractional part lies in [0,1) with the integer part absorbing overflow. -/
structure Phase where
  int : ℤ
  frac : ℚ
  deriving DecidableEq

/-- Modelled from the spec: building a `Phase` from a single number splits it
into integer and fractional cycle parts (fractional part in [0,1)). -/
def Phase.ofRat (x : ℚ) : Phase := ⟨⌊x⌋, Int.fract x⟩

/-- Modelled from the spec: `Phase` addition adds the integer and fractional
parts and renormalizes, carrying overflow of the fractional sum into the
integer part. -/
def Phase.add (a b : Phase) : Phase :=
  ⟨a.int + b.int + ⌊a.frac + b.frac⌋, Int.fract (a.frac + b.frac)⟩

/-- The combined value (integer plus fractional cycles) carried by a Phase. -/
def Phase.val (p : Phase) : ℚ := (p.int : ℚ) + p.frac

lemma Phase.val_ofRat (x : ℚ) : (Phase.ofRat x).val = x := by
  simp only [Phase.ofRat, Phase.val, Int.fract]
  ring

lemma Phase.val_add (a b : Phase) : (a.add b).val = a.val + b.val := by
  simp only [Phase.add, Phase.val, Int.fract]
  push_cast
  ring

/-- One polyco table entry (class `polycoEntry`, polycos.py lines 19-50).
`tstart`/`tstop` are derived fields, see below.  Coefficient values are the
entry's polynomial coefficients in ascending order. -/
structure polycoEntry where
  tmid : ℚ
  mjdspan : ℚ
  rphase : Phase
  f0 : ℚ
  ncoeff : ℕ
  coeffs : List ℚ
  obs : String
  deriving DecidableEq

/-- Default entry used only as the out-of-bounds placeholder of `List.getD`. -/
def defaultEntry : polycoEntry := ⟨0, 0, Phase.ofRat 0, 0, 0, [], ""⟩

instance : Inhabited polycoEntry := ⟨defaultEntry⟩

/-- polycos.py line 44: `tstart = tmid - mjdspan/2`. -/
def polycoEntry.tstart (e : polycoEntry) : ℚ := e.tmid - e.mjdspan / 2

/-- polycos.py line 45: `tstop = tmid + mjdspan/2`. -/
def polycoEntry.tstop (e : polycoEntry) : ℚ := e.tmid + e.mjdspan / 2

/-- polycos.py lines 59-61: an entry is valid for `t` iff
`tmid - mjdspan/2 <= t < tmid + mjdspan/2`. -/
def polycoEntry.valid (e : polycoEntry) (t : ℚ) : Prop :=
  e.tstart ≤ t ∧ t < e.tstop

/-- The Phase-tracking Horner loop of `evalabsphase` (polycos.py lines 69-75):
for each remaining coefficient `c` (walking from index ncoeff-2 down to 0) the
code forms `Phase(dt*phase.int) + Phase(dt*phase.frac) + Phase(c)`.
The list argument holds the coefficients in the order the loop visits them.
(The loop also updates a plain accumulator `p` that is never used afterwards;
it is dead code and not modelled.) -/
def hornerPhaseLoop (dt : ℚ) : Phase → List ℚ → Phase
  | phase, [] => phase
  | phase, c :: rest =>
      hornerPhaseLoop dt
        (((Phase.ofRat (dt * (phase.int : ℚ))).add
            (Phase.ofRat (dt * phase.frac))).add (Phase.ofRat c)) rest

/-- The plain-number Horner loop of `evalabsphaseB` (polycos.py lines 85-87):
`phase = c + dt*phase` for each remaining coefficient. -/
def hornerRawLoop (dt : ℚ) : ℚ → List ℚ → ℚ
  | p, [] => p
  | p, c :: rest => hornerRawLoop dt (c + dt * p) rest

/-- polycos.py lines 63-79 (`evalabsphase`): `dt = (t - tmid)*1440`; the Phase
accumulator starts at `Phase(coeffs[ncoeff-1])`, the loop walks indices
ncoeff-2 down to 0, and finally `rphase + Phase(dt*60*f0)` is added. -/
def polycoEntry.evalabsphase (e : polycoEntry) (t : ℚ) : Phase :=
  let dt := (t - e.tmid) * 1440
  let phase0 := Phase.ofRat (e.coeffs.getD (e.ncoeff - 1) 0)
  let phase := hornerPhaseLoop dt phase0 ((e.coeffs.take (e.ncoeff - 1)).reverse)
  phase.add (e.rphase.add (Phase.ofRat (dt * 60 * e.f0)))

/-- polycos.py lines 81-90 (`evalabsphaseB`): same recurrence on plain numbers;
the final line adds `rphase + dt*60*f0` where `rphase` contributes its
combined value. -/
def polycoEntry.evalabsphaseB (e : polycoEntry) (t : ℚ) : ℚ :=
  let dt := (t - e.tmid) * 1440
  let phase := hornerRawLoop dt (e.coeffs.getD (e.ncoeff - 1) 0)
    ((e.coeffs.take (e.ncoeff - 1)).reverse)
  phase + (e.rphase.val + dt * 60 * e.f0)

/-- polycos.py lines 92-94: `evalphase` returns the fractional part of
`evalabsphase`. -/
def polycoEntry.evalphase (e : polycoEntry) (t : ℚ) : ℚ :=
  (e.evalabsphase t).frac

lemma hornerPhaseLoop_val (dt : ℚ) (p : Phase) (l : List ℚ) :
    (hornerPhaseLoop dt p l).val = hornerRawLoop dt p.val l := by
  induction l generalizing p with
  | nil => rfl
  | cons c rest ih =>
      simp only [hornerPhaseLoop, hornerRawLoop]
      rw [ih]
      congr 1
      simp only [Phase.add, Phase.ofRat, Phase.val, Int.fract]
      push_cast
      ring

lemma hornerRawLoop_append (dt a : ℚ) (l₁ l₂ : List ℚ) :
    hornerRawLoop dt a (l₁ ++ l₂) = hornerRawLoop dt (hornerRawLoop dt a l₁) l₂ := by
  induction l₁ generalizing a with
  | nil => rfl
  | cons c rest ih => simp [hornerRawLoop, ih]

lemma hornerRawLoop_reverse (dt a : ℚ) (l : List ℚ) :
    hornerRawLoop dt a l.reverse =
      a * dt ^ l.length + ∑ i in Finset.range l.length, l.getD i 0 * dt ^ i := by
  induction l generalizing a with
  | nil => simp [hornerRawLoop]
  | cons c rest ih =>
      rw [List.reverse_cons, hornerRawLoop_append, ih]
      simp only [hornerRawLoop, List.length_cons]
      rw [Finset.sum_range_succ']
      simp only [List.getD_cons_succ, List.getD_cons_zero]
      have hsum : ∑ i in Finset.range rest.length, rest.getD i 0 * dt ^ (i + 1)
          = dt * ∑ i in Finset.range rest.length, rest.getD i 0 * dt ^ i := by
        rw [Finset.mul_sum]
        exact Finset.sum_congr rfl (fun i _ => by ring)
      rw [hsum]
      ring

lemma length_take_of_le {α : Type} (l : List α) (k : ℕ) (h : k ≤ l.length) :
    (l.take k).length = k := by
  simp [List.length_take, Nat.min_eq_left h]

lemma getD_take_of_lt (l : List ℚ) (k i : ℕ) (h : i < k) :
    (l.take k).getD i 0 = l.getD i 0 := by
  simp [List.getD_eq_getElem?_getD, List.getElem?_take, h]

/-- C1: for every polynomial segment and every time t, evalabsphase computes
dt = (t - tmid)*1440, evaluates the coefficient polynomial in dt by Horner's
method, and adds the DC term rphase + dt*60*f0, so the returned phase equals
rphase + dt*60*f0 + sum of coeffs i * dt^i over i < ncoeff. -/
theorem evalabsphase_closed_form (e : polycoEntry) (t : ℚ)
    (hn : 1 ≤ e.ncoeff) (hlen : e.coeffs.length = e.ncoeff) :
    (e.evalabsphase t).val =
      e.rphase.val + ((t - e.tmid) * 1440) * 60 * e.f0 +
        ∑ i in Finset.range e.ncoeff,
          e.coeffs.getD i 0 * ((t - e.tmid) * 1440) ^ i := by
  obtain ⟨m, hm⟩ : ∃ m, e.ncoeff = m + 1 :=
    ⟨e.ncoeff - 1, (Nat.succ_pred_eq_of_pos hn).symm⟩
  have hmlen : m ≤ e.coeffs.length := by omega
  simp only [polycoEntry.evalabsphase, Phase.val_add, Phase.val_ofRat,
    hornerPhaseLoop_val, hm]
  rw [Nat.add_sub_cancel, hornerRawLoop_reverse, length_take_of_le _ _ hmlen,
    Finset.sum_range_succ]
  have hco : ∑ i in Finset.range m, (e.coeffs.take m).getD i 0 *
      ((t - e.tmid) * 1440) ^ i
      = ∑ i in Finset.range m, e.coeffs.getD i 0 * ((t - e.tmid) * 1440) ^ i :=
    Finset.sum_congr rfl
      (fun i hi => by rw [getD_take_of_lt _ _ _ (Finset.mem_range.mp hi)])
  rw [hco]
  ring

/-- A concrete entry used by several witnesses: midpoint 0 and span 2, hence
validity window [-1, 1]; reference phase 3/2, f0 = 2, coefficients 5 and 7. -/
def entryA : polycoEntry :=
  ⟨0, 2, Phase.ofRat (3 / 2), 2, 2, [5, 7], "0"⟩

theorem evalabsphase_closed_form_witness :
    1 ≤ entryA.ncoeff ∧ entryA.coeffs.length = entryA.ncoeff ∧
      (entryA.evalabsphase 1).val =
        entryA.rphase.val + ((1 - entryA.tmid) * 1440) * 60 * entryA.f0 +
          ∑ i in Finset.range entryA.ncoeff,
            entryA.coeffs.getD i 0 * ((1 - entryA.tmid) * 1440) ^ i :=
  ⟨by decide, by decide,
    evalabsphase_closed_form entryA 1 (by decide) (by decide)⟩

/-- C9: for every polynomial segment and every time t, the Phase-tracking
evaluator evalabsphase and the plain-arithmetic evaluator evalabsphaseB
produce the same phase value (integer plus fractional cycles combined). -/
theorem evalabsphase_val_eq_evalabsphaseB (e : polycoEntry) (t : ℚ) :
    (e.evalabsphase t).val = e.evalabsphaseB t := by
  simp only [polycoEntry.evalabsphase, polycoEntry.evalabsphaseB,
    Phase.val_add, Phase.val_ofRat, hornerPhaseLoop_val]

/-- The distinct error exits of the table code: the no-data AttributeError
(polycos.py lines 449-455), the range ValueError (line 465), the coverage-gap
ValueError (line 474), and the NameError raised by the undefined name
`absPhase` inside `eval_phase` (line 485). -/
inductive PolycoError where
  | noData
  | outOfRange
  | coverageGap
  | nameErrorAbsPhase
  deriving DecidableEq

/-- Python list indexing with the negative-index convention, totalized with
default 0: `a[i]` is element i for i ≥ 0 and element len+i for i < 0.
find_entry reaches index -1 both through `tStop[-1]` and through
`entryIndex = searchsorted(...) - 1`. -/
def pyGet (l : List ℚ) (i : ℤ) : ℚ :=
  if 0 ≤ i then l.getD i.toNat 0 else l.getD (l.length - (-i).toNat) 0

/-- np.searchsorted(a, t) with the default side (left), on the sorted arrays
the code builds: the first index whose element is ≥ t, embedded as the length
of the longest prefix of elements < t (polycos.py line 467). -/
def searchsorted_left (l : List ℚ) (t : ℚ) : ℕ :=
  (l.takeWhile (fun s => decide (s < t))).length

/-- polycos.py lines 443-476 (`find_entry`), scalar query: an empty table
raises the no-data error; `t < tStart[0] or t > tStop[-1]` raises the range
error; otherwise `entryIndex = searchsorted(tStart, t) - 1`, and
`t > tStop[entryIndex]` raises the coverage-gap error; otherwise the index is
returned. -/
def find_entry (tbl : List polycoEntry) (t : ℚ) : Except PolycoError ℤ :=
  if tbl.length = 0 then Except.error PolycoError.noData
  else
    let tStart := tbl.map polycoEntry.tstart
    let tStop := tbl.map polycoEntry.tstop
    if t < tStart.getD 0 0 ∨ tStop.getD (tStop.length - 1) 0 < t then
      Except.error PolycoError.outOfRange
    else
      let entryIndex : ℤ := (searchsorted_left tStart t : ℤ) - 1
      if pyGet tStop entryIndex < t then Except.error PolycoError.coverageGap
      else Except.ok entryIndex

/-- polycos.py lines 478-486 (`eval_phase`), scalar query: the entry index is
resolved through find_entry (whose errors propagate); the loop body then
assigns into `absPhase`, a name never defined in this function (the local
result array is called `phase`), so the first loop iteration raises NameError
for every in-range query. -/
def eval_phase (tbl : List polycoEntry) (t : ℚ) : Except PolycoError ℚ :=
  match find_entry tbl t with
  | Except.error e => Except.error e
  | Except.ok _ => Except.error PolycoError.nameErrorAbsPhase

lemma map_getD (f : polycoEntry → ℚ) (l : List polycoEntry) (i : ℕ)
    (h : i < l.length) :
    (l.map f).getD i 0 = f (l.getD i defaultEntry) := by
  rw [List.getD_eq_getElem (l.map f) 0 (by simpa using h),
    List.getD_eq_getElem l defaultEntry h]
  simp

lemma takeWhile_length_eq (P : ℚ → Bool) (l : List ℚ) (n : ℕ)
    (hn : n ≤ l.length)
    (h1 : ∀ j, j < n → P (l.getD j 0) = true)
    (h2 : n < l.length → P (l.getD n 0) = false) :
    (l.takeWhile P).length = n := by
  induction l generalizing n with
  | nil =>
      simp only [List.length_nil, Nat.le_zero] at hn
      simp [hn]
  | cons x xs ih =>
      cases n with
      | zero =>
          have hx : P x = false := h2 (by simp)
          simp [List.takeWhile_cons, hx]
      | succ m =>
          have hx : P x = true := by simpa using h1 0 (Nat.succ_pos m)
          rw [List.takeWhile_cons_of_pos hx]
          simp only [List.length_cons, Nat.succ_eq_add_one, Nat.add_left_inj]
          refine ih m (by simpa using hn) (fun j hj => ?_) (fun hm => ?_)
          · simpa using h1 (j + 1) (by omega)
          · simpa using h2 (by simpa using hm)

lemma tstart_mono (tbl : List polycoEntry)
    (hspan : ∀ i, i < tbl.length →
      (tbl.getD i defaultEntry).tstart ≤ (tbl.getD i defaultEntry).tstop)
    (hsort : ∀ i, i + 1 < tbl.length →
      (tbl.getD i defaultEntry).tstop ≤ (tbl.getD (i + 1) defaultEntry).tstart) :
    ∀ i j, i ≤ j → j < tbl.length →
      (tbl.getD i defaultEntry).tstart ≤ (tbl.getD j defaultEntry).tstart := by
  intro i j hij
  induction j, hij using Nat.le_induction with
  | base => intro _; exact le_rfl
  | succ n hin ih =>
      intro hj
      have h1 := ih (by omega)
      have h2 := hspan n (by omega)
      have h3 := hsort n hj
      linarith

lemma tstop_le_tstart_of_lt (tbl : List polycoEntry)
    (hspan : ∀ i, i < tbl.length →
      (tbl.getD i defaultEntry).tstart ≤ (tbl.getD i defaultEntry).tstop)
    (hsort : ∀ i, i + 1 < tbl.length →
      (tbl.getD i defaultEntry).tstop ≤ (tbl.getD (i + 1) defaultEntry).tstart) :
    ∀ i j, i < j → j < tbl.length →
      (tbl.getD i defaultEntry).tstop ≤ (tbl.getD j defaultEntry).tstart := by
  intro i j hij hj
  have h1 : i + 1 ≤ j := hij
  have h2 := hsort i (by omega)
  have h3 := tstart_mono tbl hspan hsort (i + 1) j h1 hj
  linarith

lemma tstop_mono (tbl : List polycoEntry)
    (hspan : ∀ i, i < tbl.length →
      (tbl.getD i defaultEntry).tstart ≤ (tbl.getD i defaultEntry).tstop)
    (hsort : ∀ i, i + 1 < tbl.length →
      (tbl.getD i defaultEntry).tstop ≤ (tbl.getD (i + 1) defaultEntry).tstart) :
    ∀ i j, i ≤ j → j < tbl.length →
      (tbl.getD i defaultEntry).tstop ≤ (tbl.getD j defaultEntry).tstop := by
  intro i j hij hj
  rcases Nat.lt_or_ge i j with h | h
  · have h1 := tstop_le_tstart_of_lt tbl hspan hsort i j h hj
    have h2 := hspan j hj
    linarith
  · have : i = j := by omega
    subst this
    exact le_rfl

lemma searchsorted_left_eq (tbl : List polycoEntry) (t : ℚ) (n : ℕ)
    (hn : n ≤ tbl.length)
    (h1 : ∀ j, j < n → (tbl.getD j defaultEntry).tstart < t)
    (h2 : n < tbl.length → t ≤ (tbl.getD n defaultEntry).tstart) :
    searchsorted_left (tbl.map polycoEntry.tstart) t = n := by
  unfold searchsorted_left
  refine takeWhile_length_eq _ _ n (by simpa using hn) (fun j hj => ?_)
    (fun hlt => ?_)
  · rw [map_getD _ _ _ (by omega)]
    simpa using h1 j hj
  · rw [map_getD _ _ _ (by simpa using hlt)]
    simp only [decide_eq_false_iff_not, not_lt]
    exact h2 (by simpa using hlt)

lemma pyGet_natCast (l : List ℚ) (k : ℕ) : pyGet l (k : ℤ) = l.getD k 0 := by
  simp [pyGet]

/-- C2: for every table whose segments are sorted by start time and
non-overlapping, and every query time t strictly inside one segment's
half-open window (tstart < t < tstop), find_entry returns that segment's
index — the rightmost start ≤ t — and no other segment's window contains t. -/
theorem find_entry_strictly_inside (tbl : List polycoEntry) (t : ℚ) (k : ℕ)
    (hk : k < tbl.length)
    (hspan : ∀ i, i < tbl.length →
      (tbl.getD i defaultEntry).tstart ≤ (tbl.getD i defaultEntry).tstop)
    (hsort : ∀ i, i + 1 < tbl.length →
      (tbl.getD i defaultEntry).tstop ≤ (tbl.getD (i + 1) defaultEntry).tstart)
    (hlo : (tbl.getD k defaultEntry).tstart < t)
    (hhi : t < (tbl.getD k defaultEntry).tstop) :
    find_entry tbl t = Except.ok (k : ℤ) ∧
      ∀ j, j < tbl.length → j ≠ k →
        ¬((tbl.getD j defaultEntry).tstart ≤ t ∧
          t < (tbl.getD j defaultEntry).tstop) := by
  have hne : ¬(tbl.length = 0) := by omega
  have hss : searchsorted_left (tbl.map polycoEntry.tstart) t = k + 1 := by
    refine searchsorted_left_eq tbl t (k + 1) (by omega) (fun j hj => ?_)
      (fun hlt => ?_)
    · have := tstart_mono tbl hspan hsort j k (by omega) hk
      linarith
    · have := hsort k hlt
      linarith
  constructor
  · simp only [find_entry]
    rw [if_neg hne]
    have hrange : ¬(t < (tbl.map polycoEntry.tstart).getD 0 0 ∨
        (tbl.map polycoEntry.tstop).getD
          ((tbl.map polycoEntry.tstop).length - 1) 0 < t) := by
      push_neg
      constructor
      · rw [map_getD _ _ _ (by omega)]
        have := tstart_mono tbl hspan hsort 0 k (by omega) hk
        linarith
      · have hlen : (tbl.map polycoEntry.tstop).length = tbl.length :=
          List.length_map tbl polycoEntry.tstop
        rw [hlen, map_getD _ _ _ (by omega)]
        have := tstop_mono tbl hspan hsort k (tbl.length - 1) (by omega)
          (by omega)
        linarith
    rw [if_neg hrange, hss]
    have hidx : ((k + 1 : ℕ) : ℤ) - 1 = (k : ℤ) := by push_cast; ring
    rw [hidx, pyGet_natCast, map_getD _ _ _ hk]
    rw [if_neg (not_lt.mpr (le_of_lt hhi))]
  · intro j hj hjk hcontra
    obtain ⟨hj1, hj2⟩ := hcontra
    rcases Nat.lt_or_ge j k with hlt | hge
    · have := tstop_le_tstart_of_lt tbl hspan hsort j k hlt hk
      linarith
    · have hgt : k < j := by omega
      have := tstop_le_tstart_of_lt tbl hspan hsort k j hgt hj
      linarith

/-- A second concrete entry: midpoint 2 and span 2, validity window [1, 3]. -/
def entryB : polycoEntry :=
  ⟨2, 2, Phase.ofRat 4, 2, 2, [1, 3], "0"⟩

theorem find_entry_strictly_inside_witness :
    1 < [entryA, entryB].length ∧
      ([entryA, entryB].getD 1 defaultEntry).tstart < 2 ∧
      (2 : ℚ) < ([entryA, entryB].getD 1 defaultEntry).tstop ∧
      (find_entry [entryA, entryB] 2 = Except.ok (1 : ℤ) ∧
        ∀ j, j < [entryA, entryB].length → j ≠ 1 →
          ¬(([entryA, entryB].getD j defaultEntry).tstart ≤ 2 ∧
            (2 : ℚ) < ([entryA, entryB].getD j defaultEntry).tstop)) :=
  ⟨by norm_num,
    by norm_num [entryB, polycoEntry.tstart],
    by norm_num [entryB, polycoEntry.tstop],
    find_entry_strictly_inside [entryA, entryB] 2 1 (by norm_num)
      (by
        intro i hi
        norm_num at hi
        interval_cases i <;>
          norm_num [entryA, entryB, polycoEntry.tstart, polycoEntry.tstop])
      (by
        intro i hi
        norm_num at hi
        have hi0 : i = 0 := by omega
        subst hi0
        norm_num [entryA, entryB, polycoEntry.tstart, polycoEntry.tstop])
      (by norm_num [entryB, polycoEntry.tstart])
      (by norm_num [entryB, polycoEntry.tstop])⟩

/-- A one-coefficient entry: midpoint 1/2, span 1, validity window [0, 1];
reference phase 1/4, f0 = 3, single coefficient 2. -/
def entryC : polycoEntry := ⟨1 / 2, 1, Phase.ofRat (1 / 4), 3, 1, [2], "0"⟩

/-- A one-coefficient entry: midpoint 5/2, span 1, validity window [2, 3];
together with entryC it forms a table with a coverage gap (1, 2). -/
def entryD : polycoEntry := ⟨5 / 2, 1, Phase.ofRat 0, 3, 1, [2], "0"⟩

/-- C3 counterexample: for the one-entry table whose window is [0, 1), the
query t = 1 equals the last segment's stop; the claim says such a query is
rejected, but find_entry accepts it and returns index 0, because the range
check only rejects t strictly greater than the last stop. -/
theorem find_entry_at_last_stop_not_rejected :
    entryC.tstop = 1 ∧ find_entry [entryC] 1 = Except.ok 0 := by
  constructor
  · norm_num [entryC, polycoEntry.tstop]
  · norm_num [find_entry, searchsorted_left, entryC, polycoEntry.tstart,
      polycoEntry.tstop, List.takeWhile, pyGet, List.getD]

/-- C3 (amended): for every populated table, a query time t before the first
segment's start or strictly after the last segment's stop raises the
out-of-range error; t exactly equal to the last segment's stop is accepted. -/
theorem find_entry_out_of_range (tbl : List polycoEntry) (t : ℚ)
    (hne : tbl.length ≠ 0)
    (h : t < (tbl.getD 0 defaultEntry).tstart ∨
      (tbl.getD (tbl.length - 1) defaultEntry).tstop < t) :
    find_entry tbl t = Except.error PolycoError.outOfRange := by
  simp only [find_entry]
  rw [if_neg hne]
  have h0 : (tbl.map polycoEntry.tstart).getD 0 0 =
      (tbl.getD 0 defaultEntry).tstart := map_getD _ _ _ (by omega)
  have h1 : (tbl.map polycoEntry.tstop).getD
      ((tbl.map polycoEntry.tstop).length - 1) 0 =
      (tbl.getD (tbl.length - 1) defaultEntry).tstop := by
    rw [List.length_map]
    exact map_getD _ _ _ (by omega)
  have hcond : t < (tbl.map polycoEntry.tstart).getD 0 0 ∨
      (tbl.map polycoEntry.tstop).getD
        ((tbl.map polycoEntry.tstop).length - 1) 0 < t := by
    rw [h0, h1]
    exact h
  rw [if_pos hcond]

theorem find_entry_out_of_range_witness :
    [entryC].length ≠ 0 ∧
      (((2 : ℚ) < ([entryC].getD 0 defaultEntry).tstart ∨
        ([entryC].getD ([entryC].length - 1) defaultEntry).tstop < 2)) ∧
      find_entry [entryC] 2 = Except.error PolycoError.outOfRange :=
  ⟨by norm_num,
    Or.inr (by norm_num [entryC, polycoEntry.tstop]),
    find_entry_out_of_range [entryC] 2 (by norm_num)
      (Or.inr (by norm_num [entryC, polycoEntry.tstop]))⟩

/-- C7 counterexample: in the table {[0,1], [2,3]} the query t = 1 resolves to
segment 0 whose stop equals t (so stop ≤ t holds and t lies in the coverage
gap boundary); the claim says a coverage-gap error is raised, but find_entry
accepts and returns index 0, because the gap check only fires for t strictly
greater than the resolved stop. -/
theorem find_entry_gap_at_stop_not_detected :
    entryC.tstop ≤ 1 ∧ find_entry [entryC, entryD] 1 = Except.ok 0 := by
  constructor
  · norm_num [entryC, polycoEntry.tstop]
  · norm_num [find_entry, searchsorted_left, entryC, entryD,
      polycoEntry.tstart, polycoEntry.tstop, List.takeWhile, pyGet, List.getD]

/-- C7 (amended): for every sorted non-overlapping populated table whose range
check passes, find_entry raises the coverage-gap error whenever the resolved
segment's stop is strictly below t (the boundary case stop = t is accepted
instead). -/
theorem find_entry_coverage_gap (tbl : List polycoEntry) (t : ℚ) (k : ℕ)
    (hk1 : k + 1 < tbl.length)
    (hspan : ∀ i, i < tbl.length →
      (tbl.getD i defaultEntry).tstart ≤ (tbl.getD i defaultEntry).tstop)
    (hsort : ∀ i, i + 1 < tbl.length →
      (tbl.getD i defaultEntry).tstop ≤ (tbl.getD (i + 1) defaultEntry).tstart)
    (hlo : (tbl.getD k defaultEntry).tstart < t)
    (hnext : t ≤ (tbl.getD (k + 1) defaultEntry).tstart)
    (hgap : (tbl.getD k defaultEntry).tstop < t) :
    find_entry tbl t = Except.error PolycoError.coverageGap := by
  have hne : ¬(tbl.length = 0) := by omega
  have hss : searchsorted_left (tbl.map polycoEntry.tstart) t = k + 1 := by
    refine searchsorted_left_eq tbl t (k + 1) (by omega) (fun j hj => ?_)
      (fun _ => hnext)
    have := tstart_mono tbl hspan hsort j k (by omega) (by omega)
    linarith
  simp only [find_entry]
  rw [if_neg hne]
  have hrange : ¬(t < (tbl.map polycoEntry.tstart).getD 0 0 ∨
      (tbl.map polycoEntry.tstop).getD
        ((tbl.map polycoEntry.tstop).length - 1) 0 < t) := by
    push_neg
    constructor
    · rw [map_getD _ _ _ (by omega)]
      have := tstart_mono tbl hspan hsort 0 k (by omega) (by omega)
      linarith
    · rw [List.length_map, map_getD _ _ _ (by omega)]
      have h1 := hspan (k + 1) hk1
      have h2 := tstop_mono tbl hspan hsort (k + 1) (tbl.length - 1)
        (by omega) (by omega)
      linarith
  rw [if_neg hrange, hss]
  have hidx : ((k + 1 : ℕ) : ℤ) - 1 = (k : ℤ) := by push_cast; ring
  rw [hidx, pyGet_natCast, map_getD _ _ _ (by omega)]
  rw [if_pos hgap]

theorem find_entry_coverage_gap_witness :
    0 + 1 < [entryC, entryD].length ∧
      ([entryC, entryD].getD 0 defaultEntry).tstop < 3 / 2 ∧
      find_entry [entryC, entryD] (3 / 2) =
        Except.error PolycoError.coverageGap :=
  ⟨by norm_num,
    by norm_num [entryC, polycoEntry.tstop],
    find_entry_coverage_gap [entryC, entryD] (3 / 2) 0 (by norm_num)
      (by
        intro i hi
        norm_num at hi
        interval_cases i <;>
          norm_num [entryC, entryD, polycoEntry.tstart, polycoEntry.tstop])
      (by
        intro i hi
        norm_num at hi
        have hi0 : i = 0 := by omega
        subst hi0
        norm_num [entryC, entryD, polycoEntry.tstart, polycoEntry.tstop])
      (by norm_num [entryC, polycoEntry.tstart])
      (by norm_num [entryD, polycoEntry.tstart])
      (by norm_num [entryC, polycoEntry.tstop])⟩

/-- C4: code-bug evidence.  For the populated table [entryC] and the in-range
query t = 1/2, eval_phase raises NameError (its loop assigns into the
undefined name absPhase), whereas the fractional part of the covering
segment's evalabsphase — the value the claim says eval_phase returns — is
well defined and equals 1/4. -/
theorem eval_phase_raises_name_error :
    eval_phase [entryC] (1 / 2) = Except.error PolycoError.nameErrorAbsPhase ∧
      entryC.evalphase (1 / 2) = 1 / 4 := by
  constructor
  · norm_num [eval_phase, find_entry, searchsorted_left, entryC,
      polycoEntry.tstart, polycoEntry.tstop, List.takeWhile, pyGet, List.getD]
  · norm_num [polycoEntry.evalphase, polycoEntry.evalabsphase, entryC,
      hornerPhaseLoop, Phase.ofRat, Phase.add, Int.fract, List.getD]

/-- polycos.py lines 360-371: the window list of generate_polycos.  The first
window [mjdStart, mjdStart+segLength] is created before the loop; the loop
then repeatedly slides: d0 = d1 and d1 = mjdEnd when mjdEnd - d0 < segLength,
else d1 = d1 + segLength, appending (d0, d1), while d1 < mjdEnd.  All times
are in days (the code converts segLength from minutes with astropy units
before this arithmetic).  The loop guard is strengthened with 0 < segLength:
for a non-positive segment length the Python loop never terminates, so the
function is only meaningful there. -/
def domLoop (mjdEnd segLength d1 : ℚ) : List (ℚ × ℚ) :=
  if h : 0 < segLength ∧ d1 < mjdEnd then
    if mjdEnd - d1 < segLength then
      (d1, mjdEnd) :: domLoop mjdEnd segLength mjdEnd
    else
      (d1, d1 + segLength) :: domLoop mjdEnd segLength (d1 + segLength)
  else []
termination_by Nat.ceil ((mjdEnd - d1) / segLength)
decreasing_by
  · have h1 : (0 : ℚ) < (mjdEnd - d1) / segLength := div_pos (by linarith) h.1
    have h2 : (mjdEnd - mjdEnd) / segLength = 0 := by
      rw [sub_self, zero_div]
    rw [h2]
    simpa using Nat.ceil_pos.mpr h1
  · rename_i hge
    have hseg : (0 : ℚ) < segLength := h.1
    have hx : (1 : ℚ) ≤ (mjdEnd - d1) / segLength := by
      rw [le_div_iff₀ hseg]
      linarith [not_lt.mp hge]
    have hrw : (mjdEnd - (d1 + segLength)) / segLength =
        (mjdEnd - d1) / segLength - 1 := by
      field_simp
      ring
    rw [hrw]
    have hc : Nat.ceil ((mjdEnd - d1) / segLength - 1) + 1 =
        Nat.ceil ((mjdEnd - d1) / segLength) := by
      rw [← Nat.ceil_add_one (by linarith : (0:ℚ) ≤ (mjdEnd - d1)/segLength - 1)]
      norm_num
    omega

/-- polycos.py lines 360-362 and the loop: the full window list, first window
included. -/
def generateDomainList (mjdStart mjdEnd segLength : ℚ) : List (ℚ × ℚ) :=
  (mjdStart, mjdStart + segLength) :: domLoop mjdEnd segLength (mjdStart + segLength)

lemma domLoop_eq_nil (e s d1 : ℚ) (h : ¬(0 < s ∧ d1 < e)) :
    domLoop e s d1 = [] := by
  rw [domLoop.eq_def, dif_neg h]

lemma domLoop_ne_nil (e s d1 : ℚ) (h : 0 < s ∧ d1 < e) :
    domLoop e s d1 ≠ [] := by
  rw [domLoop.eq_def, dif_pos h]
  split <;> simp

lemma domLoop_head (e s d1 : ℚ) (h : 0 < s ∧ d1 < e) :
    ∃ d2 l, domLoop e s d1 = (d1, d2) :: l := by
  rw [domLoop.eq_def, dif_pos h]
  split
  · exact ⟨e, _, rfl⟩
  · exact ⟨d1 + s, _, rfl⟩

lemma domLoop_mem (e s d1 : ℚ) :
    ∀ w ∈ domLoop e s d1,
      d1 ≤ w.1 ∧ w.1 < w.2 ∧ w.2 ≤ e ∧ (w.2 = w.1 + s ∨ w.2 = e) := by
  induction d1 using domLoop.induct e s with
  | case1 x hx hlt ih =>
      rw [domLoop.eq_def, dif_pos hx, if_pos hlt]
      intro w hw
      rcases List.mem_cons.mp hw with hw | hw
      · subst hw
        exact ⟨le_rfl, hx.2, le_rfl, Or.inr rfl⟩
      · obtain ⟨h1, h2, h3, h4⟩ := ih w hw
        exact ⟨by linarith [hx.2], h2, h3, h4⟩
  | case2 x hx hge ih =>
      rw [domLoop.eq_def, dif_pos hx, if_neg hge]
      intro w hw
      rcases List.mem_cons.mp hw with hw | hw
      · subst hw
        refine ⟨le_rfl, ?_, ?_, Or.inl rfl⟩
        · show x < x + s
          linarith [hx.1]
        · show x + s ≤ e
          linarith [not_lt.mp hge]
      · obtain ⟨h1, h2, h3, h4⟩ := ih w hw
        exact ⟨by linarith [hx.1], h2, h3, h4⟩
  | case3 x hx =>
      rw [domLoop_eq_nil e s x hx]
      intro w hw
      exact absurd hw (List.not_mem_nil w)

lemma domLoop_chain (e s d1 : ℚ) :
    List.Chain' (fun a b => a.2 = b.1) (domLoop e s d1) := by
  induction d1 using domLoop.induct e s with
  | case1 x hx hlt ih =>
      rw [domLoop.eq_def, dif_pos hx, if_pos hlt, List.chain'_cons']
      constructor
      · intro b hb
        rw [domLoop_eq_nil e s e (fun hc => lt_irrefl e hc.2)] at hb
        simp at hb
      · exact ih
  | case2 x hx hge ih =>
      rw [domLoop.eq_def, dif_pos hx, if_neg hge, List.chain'_cons']
      constructor
      · intro b hb
        by_cases hg : 0 < s ∧ x + s < e
        · obtain ⟨d2, l, hl⟩ := domLoop_head e s (x + s) hg
          rw [hl] at hb
          simp only [List.head?_cons, Option.mem_def, Option.some.injEq] at hb
          rw [← hb]
        · rw [domLoop_eq_nil e s _ hg] at hb
          simp at hb
      · exact ih
  | case3 x hx =>
      rw [domLoop_eq_nil e s x hx]
      exact List.chain'_nil

lemma getLast?_cons_of_ne_nil {α : Type} (a : α) (l : List α) (h : l ≠ []) :
    (a :: l).getLast? = l.getLast? := by
  cases l with
  | nil => exact absurd rfl h
  | cons b m => rw [List.getLast?_cons_cons]

lemma domLoop_last (e s d1 : ℚ) :
    0 < s → d1 < e →
      ((domLoop e s d1).getLast?).map Prod.snd = some e := by
  induction d1 using domLoop.induct e s with
  | case1 x hx hlt _ =>
      intro _ _
      rw [domLoop.eq_def, dif_pos hx, if_pos hlt,
        domLoop_eq_nil e s e (fun hc => lt_irrefl e hc.2)]
      simp
  | case2 x hx hge ih =>
      intro hs hxe
      rw [domLoop.eq_def, dif_pos hx, if_neg hge]
      by_cases hg : x + s < e
      · rw [getLast?_cons_of_ne_nil _ _ (domLoop_ne_nil e s (x + s) ⟨hs, hg⟩)]
        exact ih hs hg
      · have hxs : x + s = e :=
          le_antisymm (by linarith [not_lt.mp hge]) (not_lt.mp hg)
        rw [hxs, domLoop_eq_nil e s e (fun hc => lt_irrefl e hc.2)]
        simp [hxs]
  | case3 x hx =>
      intro hs hxe
      exact absurd ⟨hs, hxe⟩ hx

/-- C5 counterexample: with mjdStart = 0 < mjdEnd = 1/2 and segment length 1
day — a single window covering the whole range — the produced window list is
[(0, 1)], whose end 1 extends past mjdEnd = 1/2.  The first window is created
before the truncation loop and is never truncated, refuting the claim that no
window extends past mjdEnd. -/
theorem generateDomainList_first_window_overruns :
    generateDomainList 0 (1 / 2) 1 = [(0, 1)] ∧ ¬((1 : ℚ) ≤ 1 / 2) := by
  constructor
  · simp only [generateDomainList, zero_add]
    rw [domLoop_eq_nil (1 / 2) 1 1 (by norm_num)]
  · norm_num

/-- C5 (amended): for every mjdStart < mjdEnd and positive segment length
that moreover does not exceed mjdEnd - mjdStart, generate_polycos partitions
[mjdStart, mjdEnd) into consecutive windows: the first window starts at
mjdStart, adjacent windows share endpoints, every window is nonempty, ends no
later than mjdEnd and has the full requested length unless it ends exactly at
mjdEnd, and the final window ends exactly at mjdEnd.  (When the segment
length exceeds mjdEnd - mjdStart the single pre-loop window overruns mjdEnd;
see the counterexample.) -/
theorem generateDomainList_partition (s e seg : ℚ) (hseg : 0 < seg)
    (hse : s < e) (hlen : seg ≤ e - s) :
    (generateDomainList s e seg).head? = some (s, s + seg) ∧
    List.Chain' (fun a b => a.2 = b.1) (generateDomainList s e seg) ∧
    (∀ w ∈ generateDomainList s e seg,
      w.1 < w.2 ∧ w.2 ≤ e ∧ (w.2 = w.1 + seg ∨ w.2 = e)) ∧
    ((generateDomainList s e seg).getLast?).map Prod.snd = some e := by
  refine ⟨rfl, ?_, ?_, ?_⟩
  · rw [generateDomainList, List.chain'_cons']
    constructor
    · intro b hb
      by_cases hg : 0 < seg ∧ s + seg < e
      · obtain ⟨d2, l, hl⟩ := domLoop_head e seg (s + seg) hg
        rw [hl] at hb
        simp only [List.head?_cons, Option.mem_def, Option.some.injEq] at hb
        rw [← hb]
      · rw [domLoop_eq_nil e seg _ hg] at hb
        simp at hb
    · exact domLoop_chain e seg (s + seg)
  · intro w hw
    rw [generateDomainList] at hw
    rcases List.mem_cons.mp hw with hw | hw
    · subst hw
      refine ⟨?_, ?_, Or.inl rfl⟩
      · show s < s + seg
        linarith
      · show s + seg ≤ e
        linarith
    · obtain ⟨_, h2, h3, h4⟩ := domLoop_mem e seg (s + seg) w hw
      exact ⟨h2, h3, h4⟩
  · rw [generateDomainList]
    by_cases hg : s + seg < e
    · rw [getLast?_cons_of_ne_nil _ _ (domLoop_ne_nil e seg (s + seg) ⟨hseg, hg⟩)]
      exact domLoop_last e seg (s + seg) hseg hg
    · have hxs : s + seg = e := le_antisymm (by linarith) (not_lt.mp hg)
      rw [hxs, domLoop_eq_nil e seg e (fun hc => lt_irrefl e hc.2)]
      simp [hxs]

theorem generateDomainList_partition_witness :
    (0 : ℚ) < 1 ∧ (0 : ℚ) < 2 ∧ (1 : ℚ) ≤ 2 - 0 ∧
      ((generateDomainList 0 2 1).head? = some (0, 0 + 1) ∧
        List.Chain' (fun a b => a.2 = b.1) (generateDomainList 0 2 1) ∧
        (∀ w ∈ generateDomainList 0 2 1,
          w.1 < w.2 ∧ w.2 ≤ 2 ∧ (w.2 = w.1 + 1 ∨ w.2 = 2)) ∧
        ((generateDomainList 0 2 1).getLast?).map Prod.snd = some 2) :=
  ⟨by norm_num, by norm_num, by norm_num,
    generateDomainList_partition 0 2 1 (by norm_num) (by norm_num)
      (by norm_num)⟩

/-- The external least-squares fit collaborator.  Per numpy's documented
behavior, `numpy.polynomial.chebyshev.chebfit(x, y, deg)` fits a Chebyshev
series of degree `deg` and returns `deg + 1` coefficients. -/
def chebfitCoeffCount (deg : ℕ) : ℕ := deg + 1

/-- polycos.py line 405: generate_polycos calls
`cheb.chebfit(dnodesMjd*86400.0, drdcPhase, ncoeff)`, passing `ncoeff` itself
as the degree argument, so the fitted coefficient vector has this many
entries. -/
def generate_polycos_fit_coeff_count (ncoeff : ℕ) : ℕ := chebfitCoeffCount ncoeff

/-- polycos.py lines 375-376 and 389: `nodeCoeff` is a length-ncoeff Chebyshev
series whose only term is the leading one (the series T_{ncoeff-1}), so
`cheb.chebroots(nodeCoeff)` yields its ncoeff - 1 roots as sample nodes. -/
def generate_polycos_node_count (ncoeff : ℕ) : ℕ := ncoeff - 1

/-- C6: code-bug evidence.  The claim (with the spec and the entry class's
own documented data model) calls for a least-squares fit of degree
numCoefficients - 1, i.e. numCoefficients fitted coefficients; the code
passes ncoeff as chebfit's degree argument, so for ncoeff = 4 the fit
produces 5 coefficients through only 3 sample nodes, inconsistent with the
declared coefficient count the entry evaluators use. -/
theorem generate_polycos_fit_coeff_count_eval :
    generate_polycos_fit_coeff_count 4 = 5 ∧ generate_polycos_node_count 4 = 3 :=
  ⟨rfl, rfl⟩

/-- polycos.py lines 180-181: the reference-phase field is split at the
decimal point and the two substrings are parsed separately.  `isNeg` is the
written minus sign, `intMag` the magnitude of the digits before the point,
and the parsed integer-part value follows IEEE semantics where "-0" parses to
a zero that is not < 0, matching this signed embedding. -/
def parsedRefPhaseInt (isNeg : Bool) (intMag : ℕ) : ℚ :=
  if isNeg then -(intMag : ℚ) else (intMag : ℚ)

/-- polycos.py lines 182-184: `frac` is the value of '.' plus the fractional
digits (so 0 ≤ frac < 1); it is negated exactly when the parsed integer part
is strictly negative. -/
def parsedRefPhaseFrac (isNeg : Bool) (intMag : ℕ) (frac : ℚ) : ℚ :=
  if parsedRefPhaseInt isNeg intMag < 0 then -frac else frac

/-- The numeric value the reference-phase field as written denotes. -/
def writtenRefPhase (isNeg : Bool) (intMag : ℕ) (frac : ℚ) : ℚ :=
  if isNeg then -((intMag : ℚ) + frac) else (intMag : ℚ) + frac

/-- C8 counterexample: for the written field "-0.5" (isNeg, integer digits 0,
fraction 1/2) the written reference phase -1/2 is negative, yet the stored
fractional part stays +1/2: the integer substring "-0" parses to a zero that
is not < 0, so the sign flip is skipped. -/
theorem parsedRefPhaseFrac_neg_zero_counterexample :
    writtenRefPhase true 0 (1 / 2) < 0 ∧
      parsedRefPhaseFrac true 0 (1 / 2) = 1 / 2 ∧
      ¬(parsedRefPhaseFrac true 0 (1 / 2) < 0) := by
  refine ⟨?_, ?_, ?_⟩ <;>
    norm_num [writtenRefPhase, parsedRefPhaseFrac, parsedRefPhaseInt]

/-- C8 (amended): the integer and fractional parts are split at the decimal
point and parsed separately, and the fractional part's sign is forced to
match the parsed integer part: whenever the parsed integer part is strictly
negative the stored fractional part is the negated fraction (negative for a
nonzero fraction).  A negative written phase whose integer digits are "0"
(written value in (-1, 0)) keeps its positive fractional part. -/
theorem parsedRefPhaseFrac_sign_matches_int (isNeg : Bool) (intMag : ℕ)
    (frac : ℚ) (hfrac : 0 < frac)
    (hneg : parsedRefPhaseInt isNeg intMag < 0) :
    parsedRefPhaseFrac isNeg intMag frac = -frac ∧
      parsedRefPhaseFrac isNeg intMag frac < 0 := by
  constructor
  · simp [parsedRefPhaseFrac, hneg]
  · simp only [parsedRefPhaseFrac, if_pos hneg]
    linarith

theorem parsedRefPhaseFrac_sign_matches_int_witness :
    (0 : ℚ) < 1 / 2 ∧ parsedRefPhaseInt true 3 < 0 ∧
      (parsedRefPhaseFrac true 3 (1 / 2) = -(1 / 2) ∧
        parsedRefPhaseFrac true 3 (1 / 2) < 0) :=
  ⟨by norm_num, by norm_num [parsedRefPhaseInt],
    parsedRefPhaseFrac_sign_matches_int true 3 (1 / 2) (by norm_num)
      (by norm_num [parsedRefPhaseInt])⟩

/-- polycos.py lines 192-195: reading the optional binary-phase field (index
6 of the entry's second line) is wrapped in a bare try/except.  The outer
Option is the field's presence (IndexError when absent), the inner Option its
parsability as a number (ValueError when malformed); both failure modes fall
into the except branch, which stores 0.0. -/
def parseBinaryPhase (field : Option (Option ℚ)) : ℚ :=
  match field with
  | some (some v) => v
  | _ => 0

/-- C10: when the entry's optional binary-phase field is absent or not
parsable as a number, the reader silently stores binary phase 0.0 and
continues parsing instead of failing the read. -/
theorem parseBinaryPhase_defaults_to_zero (field : Option (Option ℚ))
    (h : field = none ∨ field = some none) :
    parseBinaryPhase field = 0 := by
  rcases h with h | h <;> subst h <;> rfl

theorem parseBinaryPhase_defaults_to_zero_witness :
    ((none : Option (Option ℚ)) = none ∨
        (none : Option (Option ℚ)) = some none) ∧
      parseBinaryPhase none = 0 :=
  ⟨Or.inl rfl, parseBinaryPhase_defaults_to_zero none (Or.inl rfl)⟩
